import Mathlib

set_option linter.unusedSectionVars false

/-!
Shallow embedding of the ODST ("Oblivious Differentiable Sparsemax Trees")
layer from `pytorch_tabular/models/node/odst.py`, together with theorems
checking the natural-language specification of that layer against the code.

Modelling conventions:
* Tensors are modelled as functions out of `Fin`-types (for the fixed-shape
  2-d core computation) or as a shape list together with a flat, row-major
  data function (for the rank-polymorphic `forward` entry point, which in the
  source reshapes via `view`, an operation that leaves the flat row-major
  data unchanged).
* Scalars live in an abstract linearly ordered field `α` (instantiated at `ℚ`
  in concrete witnesses), so that every definition stays executable.
  `torch.exp` and `torch.log` are modelled by explicitly passed functions
  `aexp, alog : α → α`; the single property of the real exponential that a
  claim depends on is taken as a hypothesis of that claim's theorem.
* The float sentinel `NaN` (the source fills `feature_thresholds` and
  `log_temperatures` with `float("nan")` at construction) is modelled by
  `Option α`: `none` is NaN, and the arithmetic combinators `nadd`, `nsub`,
  `nmul`, `nneg` below propagate `none` exactly as IEEE arithmetic
  propagates NaN through the operations the layer uses.
* Randomness (`np.random.beta` inside `initialize`, and the in-place
  parameter initializers passed to the constructor) is externalized: random
  draws are explicit arguments of the corresponding functions.
-/

section Defs

variable {α : Type} [LinearOrderedField α] [FloorRing α]

/-- NaN-propagating addition on `Option α` (`none` = NaN). -/
def nadd : Option α → Option α → Option α
  | some a, some b => some (a + b)
  | _, _ => none

/-- NaN-propagating subtraction on `Option α` (`none` = NaN). -/
def nsub : Option α → Option α → Option α
  | some a, some b => some (a - b)
  | _, _ => none

/-- NaN-propagating multiplication on `Option α` (`none` = NaN). -/
def nmul : Option α → Option α → Option α
  | some a, some b => some (a * b)
  | _, _ => none

/-- NaN-propagating negation on `Option α` (`none` = NaN). -/
def nneg : Option α → Option α :=
  Option.map Neg.neg

/-- Sum of a list of possibly-NaN scalars, `none` if any entry is NaN.
Models a reduction (`torch.einsum` summation) over float values. -/
def osum (l : List (Option α)) : Option α :=
  l.foldr nadd (some 0)

/-- Product of a list of possibly-NaN scalars, `none` if any entry is NaN.
Models `torch.prod` over float values. -/
def oprod (l : List (Option α)) : Option α :=
  l.foldr nmul (some 1)

/-- An input tensor: a shape and flat row-major data.  Entries are plain
scalars (inputs to `forward`/`initialize` are ordinary finite floats). -/
structure RTensor (α : Type) where
  shape : List ℕ
  data : ℕ → α

/-- An output tensor: a shape and flat row-major data whose entries may be
NaN (`none`), since the layer's lazily-initialized parameters are NaN until
`initialize` runs and NaN propagates through `forward`. -/
structure OTensor (α : Type) where
  shape : List ℕ
  data : ℕ → Option α

/-- Failure modes of `ODST.forward`: the explicit
`assert len(input.shape) >= 2` in the source; the shape mismatch error
raised by `torch.einsum` when the input's last dimension differs from
`in_features`; and the ambiguous `-1` reshape error raised by
`torch.Tensor.view` on a 0-element tensor (for rank `≥ 3` inputs, the
source's `view(-1, input.shape[-1])` raises it when the last dimension is
`0`, and `view(*input.shape[:-1], -1)` raises it when some leading
dimension is `0`). -/
inductive FwdErr where
  | assertionFailure : FwdErr
  | einsumMismatch : FwdErr
  | viewAmbiguous : FwdErr
deriving DecidableEq

/-- The `ODST` module of `odst.py`, with `in_features = F`, `num_trees = T`,
`depth = D`, `tree_output_dim = K`.  Parameter tensors are functions of
their indices; `feature_thresholds` and `log_temperatures` are
`Option`-valued because the constructor fills them with NaN (`none`).
`choice_function` is applied to the whole selection-logits tensor (the
source calls it with `dim=0`, the input-feature axis); `bin_function` is
applied elementwise, as the default `sparsemoid` is. -/
structure ODST (α : Type) (F T D K : ℕ) where
  flatten_output : Bool
  choice_function : (Fin F → Fin T → Fin D → α) → (Fin F → Fin T → Fin D → α)
  bin_function : α → α
  threshold_init_beta : α
  threshold_init_cutoff : α
  response : Fin T → Fin K → Fin (2 ^ D) → α
  feature_selection_logits : Fin F → Fin T → Fin D → α
  feature_thresholds : Fin T → Fin D → Option α
  log_temperatures : Fin T → Fin D → Option α
  bin_codes_1hot : Fin D → Fin (2 ^ D) → Fin 2 → α

/-- The binary routing code table built in `ODST.__init__`:
`bin_codes[d, c] = (c // 2^d) % 2` and
`bin_codes_1hot = stack([bin_codes, 1 - bin_codes], dim=-1)`, so component
`0` is the bit itself and component `1` is its complement. -/
def binCodesTable (D : ℕ) : Fin D → Fin (2 ^ D) → Fin 2 → α :=
  fun d c s =>
    if (s : ℕ) = 0 then (((c : ℕ) / 2 ^ (d : ℕ) % 2 : ℕ) : α)
    else 1 - (((c : ℕ) / 2 ^ (d : ℕ) % 2 : ℕ) : α)

/-- `ODST.__init__`: stores the configuration, the (externally initialized,
since the source initializers are random in-place callables) `response` and
`feature_selection_logits` tensors, fills `feature_thresholds` and
`log_temperatures` with NaN (`none`), and builds the constant routing code
table. -/
def ODST.create (F T D K : ℕ) (flatten_output : Bool)
    (choice_function : (Fin F → Fin T → Fin D → α) → (Fin F → Fin T → Fin D → α))
    (bin_function : α → α)
    (response : Fin T → Fin K → Fin (2 ^ D) → α)
    (feature_selection_logits : Fin F → Fin T → Fin D → α)
    (threshold_init_beta threshold_init_cutoff : α) : ODST α F T D K where
  flatten_output := flatten_output
  choice_function := choice_function
  bin_function := bin_function
  threshold_init_beta := threshold_init_beta
  threshold_init_cutoff := threshold_init_cutoff
  response := response
  feature_selection_logits := feature_selection_logits
  feature_thresholds := fun _ _ => none
  log_temperatures := fun _ _ => none
  bin_codes_1hot := binCodesTable D

variable {F T D K : ℕ}

/-- `feature_selectors = self.choice_function(feature_logits, dim=0)`. -/
def ODST.featureSelectors (m : ODST α F T D K) : Fin F → Fin T → Fin D → α :=
  m.choice_function m.feature_selection_logits

/-- `feature_values = torch.einsum("bi,ind->bnd", input, feature_selectors)`. -/
def ODST.featureValues (m : ODST α F T D K) (B : ℕ) (x : Fin B → Fin F → α)
    (b : Fin B) (t : Fin T) (d : Fin D) : α :=
  ∑ i : Fin F, x b i * m.featureSelectors i t d

/-- `threshold_logits = (feature_values - feature_thresholds) *
torch.exp(-log_temperatures)`, with NaN propagation from the two
lazily-initialized parameter tensors. -/
def ODST.thresholdLogits (m : ODST α F T D K) (aexp : α → α) (B : ℕ)
    (x : Fin B → Fin F → α) (b : Fin B) (t : Fin T) (d : Fin D) : Option α :=
  nmul (nsub (some (m.featureValues B x b t d)) (m.feature_thresholds t d))
    ((m.log_temperatures t d).map fun v => aexp (-v))

/-- `bins = self.bin_function(torch.stack([-threshold_logits,
threshold_logits], dim=-1))`: component `0` is `bin(-z)`, component `1` is
`bin(z)`. -/
def ODST.bins (m : ODST α F T D K) (aexp : α → α) (B : ℕ)
    (x : Fin B → Fin F → α) (b : Fin B) (t : Fin T) (d : Fin D) (s : Fin 2) :
    Option α :=
  (if (s : ℕ) = 0 then nneg (m.thresholdLogits aexp B x b t d)
    else m.thresholdLogits aexp B x b t d).map m.bin_function

/-- `bin_matches = torch.einsum("btds,dcs->btdc", bins, self.bin_codes_1hot)`. -/
def ODST.binMatches (m : ODST α F T D K) (aexp : α → α) (B : ℕ)
    (x : Fin B → Fin F → α) (b : Fin B) (t : Fin T) (d : Fin D)
    (c : Fin (2 ^ D)) : Option α :=
  osum (List.ofFn fun s : Fin 2 =>
    nmul (m.bins aexp B x b t d s) (some (m.bin_codes_1hot d c s)))

/-- `response_weights = torch.prod(bin_matches, dim=-2)`: the leaf weights. -/
def ODST.responseWeights (m : ODST α F T D K) (aexp : α → α) (B : ℕ)
    (x : Fin B → Fin F → α) (b : Fin B) (t : Fin T) (c : Fin (2 ^ D)) :
    Option α :=
  oprod (List.ofFn fun d : Fin D => m.binMatches aexp B x b t d c)

/-- `response = torch.einsum("bnd,ncd->bnc", response_weights,
self.response)`: the per-tree output vector. -/
def ODST.treeOutput (m : ODST α F T D K) (aexp : α → α) (B : ℕ)
    (x : Fin B → Fin F → α) (b : Fin B) (t : Fin T) (k : Fin K) : Option α :=
  osum (List.ofFn fun c : Fin (2 ^ D) =>
    nmul (m.responseWeights aexp B x b t c) (some (m.response t k c)))

/-- Flat row-major data of the `[B, T, K]` (equivalently, after
`flatten(1, 2)`, the `[B, T*K]`) output grid: entry `b*(T*K) + t*K + k`
holds the output for batch element `b`, tree `t`, channel `k`.  Indices at
or beyond `B*T*K` are junk (`none`). -/
def flatOut (B T K : ℕ) (f : Fin B → Fin T → Fin K → Option α) :
    ℕ → Option α := fun n =>
  if h : n < B * (T * K) then
    have hTK : 0 < T * K := by
      rcases Nat.eq_zero_or_pos (T * K) with h0 | h0
      · rw [h0, Nat.mul_zero] at h; exact absurd h (Nat.not_lt_zero n)
      · exact h0
    have hK : 0 < K := by
      rcases Nat.eq_zero_or_pos K with h0 | h0
      · rw [h0, Nat.mul_zero] at hTK; exact absurd hTK (lt_irrefl 0)
      · exact h0
    f ⟨n / (T * K), (Nat.div_lt_iff_lt_mul hTK).mpr h⟩
      ⟨n % (T * K) / K,
        (Nat.div_lt_iff_lt_mul hK).mpr (Nat.mod_lt n hTK)⟩
      ⟨n % (T * K) % K, Nat.mod_lt _ hK⟩
  else none

/-- The shape of `forward`'s output for an input of shape `sh`
(`sh.length ≥ 2`).  For a rank-2 input the source returns
`response.flatten(1, 2)` (shape `[B, T*K]`) or `response` (shape
`[B, T, K]`) depending on `flatten_output`; for higher ranks it reshapes
the recursive result with `view(*input.shape[:-1], -1)`, whose inferred
last dimension is `T*K` whichever value `flatten_output` has. -/
def fwdShape (flatten_output : Bool) (T K : ℕ) (sh : List ℕ) : List ℕ :=
  if sh.length = 2 then
    if flatten_output then sh.dropLast ++ [T * K] else sh.dropLast ++ [T, K]
  else sh.dropLast ++ [T * K]

/-- `ODST.forward`.  The source asserts `len(input.shape) >= 2`, recurses on
`input.view(-1, input.shape[-1])` for higher ranks and reshapes the result
with `view(*input.shape[:-1], -1)`; since `view` leaves row-major flat data
unchanged, the recursion is inlined here: the batch size of the flattened
2-d call is the product of the leading dimensions, and only the output
shape (`fwdShape`) differs between the rank-2 and higher-rank paths.  A
last dimension different from `in_features` makes the
`torch.einsum("bi,ind->bnd", ...)` call fail, modelled by the
`einsumMismatch` error.  On the rank `≥ 3` path the two `view` reshapes
with an inferred `-1` dimension raise on 0-element tensors: the inner
`view(-1, input.shape[-1])` when the last dimension is `0` (checked before
the einsum runs in the recursive call), and the outer
`view(*input.shape[:-1], -1)` when the leading dimensions have product `0`
(checked after, since the recursive call has already returned); both are
the `viewAmbiguous` error.  Rank-2 inputs perform no `-1` reshape
(`flatten(1, 2)` accepts empty tensors), so they never raise it. -/
def ODST.forward (m : ODST α F T D K) (aexp : α → α) (x : RTensor α) :
    Except FwdErr (OTensor α) :=
  if x.shape.length < 2 then .error .assertionFailure
  else if 2 < x.shape.length ∧ x.shape.getLastD 0 = 0 then
    .error .viewAmbiguous
  else if x.shape.getLastD 0 ≠ F then .error .einsumMismatch
  else if 2 < x.shape.length ∧ x.shape.dropLast.prod = 0 then
    .error .viewAmbiguous
  else .ok ⟨fwdShape m.flatten_output T K x.shape,
    flatOut x.shape.dropLast.prod T K fun b t k =>
      m.treeOutput aexp x.shape.dropLast.prod
        (fun b i => x.data ((b : ℕ) * F + (i : ℕ))) b t k⟩

/-- `np.percentile(l, p)` with the default linear interpolation method:
sort ascending, take the virtual position `p/100 * (n-1)`, and linearly
interpolate between the two neighbouring order statistics.  Empty input is
junk (`0`; NumPy raises there, and no claim touches that case). -/
def npPercentile (l : List α) (p : α) : α :=
  let s := l.insertionSort (· ≤ ·)
  if s.length = 0 then 0
  else
    let pos : α := p * ((s.length - 1 : ℕ) : α) / 100
    let i : ℕ := (Int.toNat ⌊pos⌋)
    let iLo : ℕ := min i (s.length - 1)
    let iHi : ℕ := min (i + 1) (s.length - 1)
    let g : α := pos - ((i : ℕ) : α)
    s.getD iLo 0 + g * (s.getD iHi 0 - s.getD iLo 0)

/-- The data-aware initializer `ODST.initialize(input, eps)` of the source.
`input` is the `[S, in_features]` sample batch (the source asserts the
input is 2-dimensional, which the type here enforces), `q` stands for the
matrix `100 * np.random.beta(threshold_init_beta, threshold_init_beta,
size=[num_trees, depth])` of randomly drawn percentiles, `alog` models
`torch.log` and `eps` is the stability constant.  Thresholds are set via
`feature_values.flatten(1, 2).t()` (row `j` of that matrix is the sample
vector for tree `j / depth`, level `j % depth`), paired with
`percentiles_q.flatten()`, mapped through `np.percentile` and reshaped with
`view(num_trees, depth)`; temperatures are the per-(tree, level) percentile
(axis 0) of the absolute deviation from the just-set thresholds at
`100 * min(1, threshold_init_cutoff)`, divided by
`max(1, threshold_init_cutoff)`, and the log-temperatures are the log of
that plus `eps`. -/
def ODST.dataAwareInit (m : ODST α F T D K) (alog : α → α) (S : ℕ)
    (input : Fin S → Fin F → α) (q : Fin T → Fin D → α) (eps : α) :
    ODST α F T D K :=
  let fv : Fin S → Fin T → Fin D → α := fun b t d => m.featureValues S input b t d
  let thetaFlat : ℕ → α := fun j =>
    if h : j / D < T ∧ j % D < D then
      npPercentile (List.ofFn fun b : Fin S => fv b ⟨j / D, h.1⟩ ⟨j % D, h.2⟩)
        (q ⟨j / D, h.1⟩ ⟨j % D, h.2⟩)
    else 0
  let thetaVal : Fin T → Fin D → α := fun t d => thetaFlat ((t : ℕ) * D + (d : ℕ))
  let temp : Fin T → Fin D → α := fun t d =>
    npPercentile (List.ofFn fun b : Fin S => |fv b t d - thetaVal t d|)
        (100 * min 1 m.threshold_init_cutoff) /
      max 1 m.threshold_init_cutoff
  { m with
    feature_thresholds := fun t d => some (thetaVal t d)
    log_temperatures := fun t d => some (alog (temp t d + eps)) }

/-- Reference computation transcribed from the specification's description
of the forward pass (claim C1), for one batch row `xrow`: selectors from
`choice_function` on the selection logits; soft-selected values as weighted
sums; scaled distances obtained by dividing by the exponentiated
log-temperature; the soft decision pair `[bin(-z), bin(z)]`; leaf weights
as the product over levels of the decision component matched to the leaf's
routing code (component `0` when the leaf's bit at that level is `1`); and
the output as the response values weighted by the leaf weights. -/
def referenceOutput (m : ODST α F T D K) (aexp : α → α)
    (θ τ : Fin T → Fin D → α) (xrow : Fin F → α) (t : Fin T) (k : Fin K) :
    α :=
  let s := m.choice_function m.feature_selection_logits
  let f : Fin D → α := fun d => ∑ i : Fin F, xrow i * s i t d
  let z : Fin D → α := fun d => (f d - θ t d) / aexp (τ t d)
  let w : Fin (2 ^ D) → α := fun c =>
    ∏ d : Fin D,
      if (c : ℕ) / 2 ^ (d : ℕ) % 2 = 1 then m.bin_function (-z d)
      else m.bin_function (z d)
  ∑ c : Fin (2 ^ D), w c * m.response t k c

/-- Shape of a `forward` result, or `[]` on failure. -/
def exShape : Except FwdErr (OTensor α) → List ℕ
  | .ok y => y.shape
  | .error _ => []

/-- Flat data entry `n` of a `forward` result, or `none` on failure. -/
def exData (e : Except FwdErr (OTensor α)) (n : ℕ) : Option α :=
  match e with
  | .ok y => y.data n
  | .error _ => none

/-- Modelled from the spec: the default soft-binarization function
`sparsemoid` (its definition lives in `models/node/utils.py`, which is not
part of the sources here).  The spec describes it as a sparse sigmoid-like
function mapping reals into `[0, 1]`; this is the canonical clamp-based
sparse sigmoid, which satisfies `bin(x) + bin(-x) = 1` as claim C3
states. -/
def sparsemoid (x : α) : α :=
  min 1 (max 0 (x / 2 + 1 / 2))

/-- Concrete stand-in for `torch.exp` used in witnesses (the constant `1`
function, which satisfies the exponential law `aexp (-v) = (aexp v)⁻¹`
required by claim C1's theorem). -/
def aexpOne : ℚ → ℚ := fun _ => 1

/-- Concrete stand-in for `torch.log` used in witnesses. -/
def alogZero : ℚ → ℚ := fun _ => 0

/-- A concrete initialized module over `ℚ` (as after data-aware init:
thresholds and log-temperatures are finite) used by witnesses. -/
def mWit : ODST ℚ 1 1 1 1 :=
  { ODST.create 1 1 1 1 true id sparsemoid (fun _ _ _ => 1) (fun _ _ _ => 0)
      1 1 with
    feature_thresholds := fun _ _ => some 0
    log_temperatures := fun _ _ => some 0 }

/-- A concrete freshly-constructed module over `ℚ` with
`flatten_output = False`, used by the counterexample to claim C2. -/
def mGrid : ODST ℚ 1 1 1 1 :=
  ODST.create 1 1 1 1 false id sparsemoid (fun _ _ _ => 1) (fun _ _ _ => 0) 1 1

/-- A concrete rank-2 input tensor of shape `[1, 1]`. -/
def xRank2 : RTensor ℚ :=
  ⟨[1, 1], fun _ => 2⟩

/-- A concrete rank-3 input tensor of shape `[1, 1, 1]`. -/
def xRank3 : RTensor ℚ :=
  ⟨[1, 1, 1], fun _ => 2⟩

/-- A concrete rank-1 input tensor (violates `forward`'s precondition). -/
def xRank1 : RTensor ℚ :=
  ⟨[3], fun _ => 2⟩

end Defs

section Helpers

variable {α : Type} [LinearOrderedField α] [FloorRing α]
variable {F T D K : ℕ}

lemma osum_ofFn_some {n : ℕ} (g : Fin n → α) :
    osum (List.ofFn fun i => some (g i)) = some (∑ i, g i) := by
  induction n with
  | zero => simp [osum]
  | succ n ih =>
    rw [List.ofFn_succ]
    show nadd (some (g 0)) (osum (List.ofFn fun i : Fin n => some (g i.succ)))
      = some (∑ i, g i)
    rw [ih fun i : Fin n => g i.succ, Fin.sum_univ_succ]
    rfl

lemma oprod_ofFn_some {n : ℕ} (g : Fin n → α) :
    oprod (List.ofFn fun i => some (g i)) = some (∏ i, g i) := by
  induction n with
  | zero => simp [oprod]
  | succ n ih =>
    rw [List.ofFn_succ]
    show nmul (some (g 0)) (oprod (List.ofFn fun i : Fin n => some (g i.succ)))
      = some (∏ i, g i)
    rw [ih fun i : Fin n => g i.succ, Fin.prod_univ_succ]
    rfl

lemma flatOut_apply (B T K : ℕ) (f : Fin B → Fin T → Fin K → Option α)
    (b t k : ℕ) (hb : b < B) (ht : t < T) (hk : k < K) :
    flatOut B T K f (b * (T * K) + (t * K + k)) = f ⟨b, hb⟩ ⟨t, ht⟩ ⟨k, hk⟩ := by
  have hr : t * K + k < T * K := by
    calc t * K + k < t * K + K := by omega
    _ = (t + 1) * K := by ring
    _ ≤ T * K := Nat.mul_le_mul_right K ht
  have hn : b * (T * K) + (t * K + k) < B * (T * K) := by
    calc b * (T * K) + (t * K + k) < b * (T * K) + T * K := by omega
    _ = (b + 1) * (T * K) := by ring
    _ ≤ B * (T * K) := Nat.mul_le_mul_right (T * K) hb
  have hdiv : (b * (T * K) + (t * K + k)) / (T * K) = b := by
    rw [Nat.mul_comm b (T * K), Nat.mul_add_div (by omega), Nat.div_eq_of_lt hr,
      Nat.add_zero]
  have hmod : (b * (T * K) + (t * K + k)) % (T * K) = t * K + k := by
    rw [Nat.mul_comm b (T * K), Nat.mul_add_mod, Nat.mod_eq_of_lt hr]
  have hdiv2 : (t * K + k) / K = t := by
    rw [Nat.mul_comm t K, Nat.mul_add_div (by omega), Nat.div_eq_of_lt hk,
      Nat.add_zero]
  have hmod2 : (t * K + k) % K = k := by
    rw [Nat.mul_comm t K, Nat.mul_add_mod, Nat.mod_eq_of_lt hk]
  rw [flatOut, dif_pos hn]
  simp only [hdiv, hmod, hdiv2, hmod2]

lemma bit_high_add_low (Dd : ℕ) (d : ℕ) (c : ℕ) (hd : d < Dd) :
    (2 ^ Dd + c) / 2 ^ d % 2 = c / 2 ^ d % 2 := by
  have h1 : (2 : ℕ) ^ Dd = 2 ^ d * 2 ^ (Dd - d) := by
    rw [← pow_add]; congr 1; omega
  rw [h1, Nat.mul_add_div (Nat.pos_pow_of_pos d (by omega))]
  have h2 : (2 : ℕ) ^ (Dd - d) = 2 * 2 ^ (Dd - d - 1) := by
    rw [← pow_succ']; congr 1; omega
  rw [h2, Nat.add_comm (2 * 2 ^ (Dd - d - 1)) (c / 2 ^ d),
    Nat.add_mul_mod_self_left]

lemma sum_prod_bits (g : ℕ → ℕ → α) (Dd : ℕ) :
    (∑ c ∈ Finset.range (2 ^ Dd), ∏ d ∈ Finset.range Dd, g d (c / 2 ^ d % 2))
      = ∏ d ∈ Finset.range Dd, (g d 0 + g d 1) := by
  induction Dd with
  | zero => simp
  | succ Dd ih =>
    have hsplit : (2 : ℕ) ^ (Dd + 1) = 2 ^ Dd + 2 ^ Dd := by
      rw [pow_succ]; omega
    rw [hsplit, Finset.sum_range_add]
    have hlow : ∀ c ∈ Finset.range (2 ^ Dd),
        (∏ d ∈ Finset.range (Dd + 1), g d (c / 2 ^ d % 2))
          = (∏ d ∈ Finset.range Dd, g d (c / 2 ^ d % 2)) * g Dd 0 := by
      intro c hc
      rw [Finset.prod_range_succ, Nat.div_eq_of_lt (Finset.mem_range.mp hc)]
    have hhigh : ∀ c ∈ Finset.range (2 ^ Dd),
        (∏ d ∈ Finset.range (Dd + 1), g d ((2 ^ Dd + c) / 2 ^ d % 2))
          = (∏ d ∈ Finset.range Dd, g d (c / 2 ^ d % 2)) * g Dd 1 := by
      intro c hc
      rw [Finset.prod_range_succ]
      congr 1
      · exact Finset.prod_congr rfl fun d hd =>
          congrArg (g d) (bit_high_add_low Dd d c (Finset.mem_range.mp hd))
      · congr 1
        rw [show (2 : ℕ) ^ Dd + c = 2 ^ Dd * 1 + c by omega,
          Nat.mul_add_div (Nat.pos_pow_of_pos Dd (by omega)),
          Nat.div_eq_of_lt (Finset.mem_range.mp hc)]
    rw [Finset.sum_congr rfl hlow, Finset.sum_congr rfl hhigh, ← Finset.sum_mul,
      ← Finset.sum_mul, ← mul_add, ih, Finset.prod_range_succ]


lemma thresholdLogits_eq (m : ODST α F T D K) (aexp : α → α)
    (θ τ : Fin T → Fin D → α)
    (hθ : m.feature_thresholds = fun t d => some (θ t d))
    (hτ : m.log_temperatures = fun t d => some (τ t d))
    (B : ℕ) (x : Fin B → Fin F → α) (b : Fin B) (t : Fin T) (d : Fin D) :
    m.thresholdLogits aexp B x b t d
      = some ((m.featureValues B x b t d - θ t d) * aexp (-τ t d)) := by
  rw [ODST.thresholdLogits, hθ, hτ]
  rfl

lemma binMatches_eq (m : ODST α F T D K) (aexp : α → α)
    (θ τ : Fin T → Fin D → α)
    (hθ : m.feature_thresholds = fun t d => some (θ t d))
    (hτ : m.log_temperatures = fun t d => some (τ t d))
    (hcodes : m.bin_codes_1hot = binCodesTable D)
    (B : ℕ) (x : Fin B → Fin F → α) (b : Fin B) (t : Fin T) (d : Fin D)
    (c : Fin (2 ^ D)) :
    m.binMatches aexp B x b t d c
      = some (if (c : ℕ) / 2 ^ (d : ℕ) % 2 = 1
          then m.bin_function
            (-((m.featureValues B x b t d - θ t d) * aexp (-τ t d)))
          else m.bin_function
            ((m.featureValues B x b t d - θ t d) * aexp (-τ t d))) := by
  have hb0 : m.bins aexp B x b t d 0
      = some (m.bin_function
          (-((m.featureValues B x b t d - θ t d) * aexp (-τ t d)))) := by
    simp [ODST.bins, thresholdLogits_eq m aexp θ τ hθ hτ, nneg]
  have hb1 : m.bins aexp B x b t d 1
      = some (m.bin_function
          ((m.featureValues B x b t d - θ t d) * aexp (-τ t d))) := by
    simp [ODST.bins, thresholdLogits_eq m aexp θ τ hθ hτ]
  rw [ODST.binMatches]
  rw [show (List.ofFn fun s : Fin 2 =>
        nmul (m.bins aexp B x b t d s) (some (m.bin_codes_1hot d c s)))
      = [nmul (m.bins aexp B x b t d 0) (some (m.bin_codes_1hot d c 0)),
          nmul (m.bins aexp B x b t d 1) (some (m.bin_codes_1hot d c 1))] from by
    simp [List.ofFn_succ]]
  rw [hb0, hb1, hcodes]
  rcases Nat.mod_two_eq_zero_or_one ((c : ℕ) / 2 ^ (d : ℕ)) with hbit | hbit <;>
    simp [osum, nadd, nmul, binCodesTable, hbit]

lemma responseWeights_eq (m : ODST α F T D K) (aexp : α → α)
    (θ τ : Fin T → Fin D → α)
    (hθ : m.feature_thresholds = fun t d => some (θ t d))
    (hτ : m.log_temperatures = fun t d => some (τ t d))
    (hcodes : m.bin_codes_1hot = binCodesTable D)
    (B : ℕ) (x : Fin B → Fin F → α) (b : Fin B) (t : Fin T)
    (c : Fin (2 ^ D)) :
    m.responseWeights aexp B x b t c
      = some (∏ d : Fin D,
          if (c : ℕ) / 2 ^ (d : ℕ) % 2 = 1
          then m.bin_function
            (-((m.featureValues B x b t d - θ t d) * aexp (-τ t d)))
          else m.bin_function
            ((m.featureValues B x b t d - θ t d) * aexp (-τ t d))) := by
  rw [ODST.responseWeights]
  rw [show (fun d : Fin D => m.binMatches aexp B x b t d c)
      = fun d : Fin D => some (if (c : ℕ) / 2 ^ (d : ℕ) % 2 = 1
          then m.bin_function
            (-((m.featureValues B x b t d - θ t d) * aexp (-τ t d)))
          else m.bin_function
            ((m.featureValues B x b t d - θ t d) * aexp (-τ t d))) from
    funext fun d => binMatches_eq m aexp θ τ hθ hτ hcodes B x b t d c]
  exact oprod_ofFn_some _

lemma treeOutput_eq_reference (m : ODST α F T D K) (aexp : α → α)
    (hexp : ∀ v : α, aexp (-v) = (aexp v)⁻¹)
    (θ τ : Fin T → Fin D → α)
    (hθ : m.feature_thresholds = fun t d => some (θ t d))
    (hτ : m.log_temperatures = fun t d => some (τ t d))
    (hcodes : m.bin_codes_1hot = binCodesTable D)
    (B : ℕ) (x : Fin B → Fin F → α) (b : Fin B) (t : Fin T) (k : Fin K) :
    m.treeOutput aexp B x b t k
      = some (referenceOutput m aexp θ τ (fun i => x b i) t k) := by
  rw [ODST.treeOutput]
  rw [show (fun c : Fin (2 ^ D) =>
        nmul (m.responseWeights aexp B x b t c) (some (m.response t k c)))
      = fun c : Fin (2 ^ D) => some ((∏ d : Fin D,
          if (c : ℕ) / 2 ^ (d : ℕ) % 2 = 1
          then m.bin_function
            (-((m.featureValues B x b t d - θ t d) * aexp (-τ t d)))
          else m.bin_function
            ((m.featureValues B x b t d - θ t d) * aexp (-τ t d)))
          * m.response t k c) from
    funext fun c => by
      rw [responseWeights_eq m aexp θ τ hθ hτ hcodes B x b t c]; rfl]
  rw [osum_ofFn_some]
  congr 1
  rw [referenceOutput]
  refine Finset.sum_congr rfl fun c _ => ?_
  congr 1
  refine Finset.prod_congr rfl fun d _ => ?_
  rw [hexp (τ t d), ← div_eq_mul_inv]
  rfl

/-- C1: for every 2-dimensional input of shape `[batch_size, in_features]`
and every assignment of finite parameter values (thresholds `θ`,
log-temperatures `τ`, with the routing code table as built at
construction), `forward` succeeds and equals the reference computation
`referenceOutput` transcribed from the spec: selectors from
`choice_function`, soft-selected values, distances divided by the
exponentiated log-temperature, the soft decision pair
`[bin(-z), bin(z)]`, leaf weights matched through the routing code table,
and response-weighted output, flattened per batch element to width
`num_trees * tree_output_dim` when `flatten_output` is true and kept as a
`[num_trees, tree_output_dim]` grid otherwise.  The hypothesis `hexp` is
the law of the real exponential that makes the code's multiplication by
`exp(-τ)` agree with the spec's division by `exp(τ)`. -/
theorem forward_eq_reference (m : ODST α F T D K) (aexp : α → α)
    (hexp : ∀ v : α, aexp (-v) = (aexp v)⁻¹)
    (θ τ : Fin T → Fin D → α)
    (hθ : m.feature_thresholds = fun t d => some (θ t d))
    (hτ : m.log_temperatures = fun t d => some (τ t d))
    (hcodes : m.bin_codes_1hot = binCodesTable D)
    (B : ℕ) (x : RTensor α) (hx : x.shape = [B, F]) :
    ∃ y, m.forward aexp x = .ok y
      ∧ y.shape = (if m.flatten_output then [B, T * K] else [B, T, K])
      ∧ ∀ (b : Fin B) (t : Fin T) (k : Fin K),
          y.data ((b : ℕ) * (T * K) + ((t : ℕ) * K + (k : ℕ)))
            = some (referenceOutput m aexp θ τ
                (fun i => x.data ((b : ℕ) * F + (i : ℕ))) t k) := by
  obtain ⟨sh, xd⟩ := x
  have hsh : sh = [B, F] := hx
  subst hsh
  have hne : ¬ (([B, F] : List ℕ).length < 2) := by simp
  have hlast : ¬ (([B, F] : List ℕ).getLastD 0 ≠ F) := by simp [List.getLastD]
  have hv1 : ¬ (2 < ([B, F] : List ℕ).length
      ∧ ([B, F] : List ℕ).getLastD 0 = 0) := by simp
  have hv2 : ¬ (2 < ([B, F] : List ℕ).length
      ∧ ([B, F] : List ℕ).dropLast.prod = 0) := by simp
  rw [ODST.forward, if_neg hne, if_neg hv1, if_neg hlast, if_neg hv2]
  refine ⟨_, rfl, ?_, ?_⟩
  · by_cases hf : m.flatten_output <;> simp [fwdShape, hf]
  · intro b t k
    have hBp : (b : ℕ) < ([B, F] : List ℕ).dropLast.prod := by
      simp
    dsimp only
    rw [flatOut_apply _ T K _ (b : ℕ) (t : ℕ) (k : ℕ) hBp t.isLt k.isLt]
    rw [treeOutput_eq_reference m aexp hexp θ τ hθ hτ hcodes]

/-- Witness for C1: the theorem applied to a concrete initialized module
over `ℚ` and a concrete `[1, 1]` input, projected to the single output
entry. -/
theorem forward_eq_reference_witness :
    exData (mWit.forward aexpOne xRank2) 0
      = some (referenceOutput mWit aexpOne (fun _ _ => 0) (fun _ _ => 0)
          (fun i : Fin 1 => xRank2.data ((0 : ℕ) * 1 + (i : ℕ))) 0 0) := by
  obtain ⟨y, h1, _, h3⟩ :=
    forward_eq_reference mWit aexpOne
      (fun v => by norm_num [aexpOne])
      (fun _ _ => 0) (fun _ _ => 0) rfl rfl rfl 1 xRank2 rfl
  rw [h1]
  show y.data 0 = _
  simpa using h3 0 0 0

lemma sum_prod_bits_fin (Dd : ℕ) (g : Fin Dd → ℕ → α) :
    (∑ c : Fin (2 ^ Dd), ∏ d : Fin Dd, g d ((c : ℕ) / 2 ^ (d : ℕ) % 2))
      = ∏ d : Fin Dd, (g d 0 + g d 1) := by
  obtain ⟨G, hGdef⟩ : ∃ G : ℕ → ℕ → α, ∀ (d : Fin Dd) (j : ℕ), G d j = g d j :=
    ⟨fun dn jn => if h : dn < Dd then g ⟨dn, h⟩ jn else 0, fun d j => by simp⟩
  have h1 : (∑ c : Fin (2 ^ Dd), ∏ d : Fin Dd, g d ((c : ℕ) / 2 ^ (d : ℕ) % 2))
      = ∑ c ∈ Finset.range (2 ^ Dd), ∏ d ∈ Finset.range Dd,
          G d (c / 2 ^ d % 2) := by
    rw [← Fin.sum_univ_eq_sum_range
      (fun c => ∏ d ∈ Finset.range Dd, G d (c / 2 ^ d % 2)) (2 ^ Dd)]
    refine Finset.sum_congr rfl fun c _ => ?_
    rw [← Fin.prod_univ_eq_prod_range (fun d => G d ((c : ℕ) / 2 ^ d % 2)) Dd]
    exact Finset.prod_congr rfl fun d _ => (hGdef d _).symm
  have h2 : (∏ d ∈ Finset.range Dd, (G d 0 + G d 1))
      = ∏ d : Fin Dd, (g d 0 + g d 1) := by
    rw [← Fin.prod_univ_eq_prod_range (fun d => G d 0 + G d 1) Dd]
    exact Finset.prod_congr rfl fun d _ => by rw [hGdef d 0, hGdef d 1]
  rw [h1, sum_prod_bits G Dd, h2]

lemma sparsemoid_add_neg (v : α) : sparsemoid v + sparsemoid (-v) = 1 := by
  unfold sparsemoid
  rcases le_total v (-1) with h | h
  · rw [max_eq_left (by linarith : v / 2 + 1 / 2 ≤ 0),
      min_eq_right (by norm_num : (0 : α) ≤ 1),
      max_eq_right (by linarith : (0 : α) ≤ -v / 2 + 1 / 2),
      min_eq_left (by linarith : (1 : α) ≤ -v / 2 + 1 / 2)]
    norm_num
  · rcases le_total 1 v with h2 | h2
    · rw [max_eq_right (by linarith : (0 : α) ≤ v / 2 + 1 / 2),
        min_eq_left (by linarith : (1 : α) ≤ v / 2 + 1 / 2),
        max_eq_left (by linarith : -v / 2 + 1 / 2 ≤ 0),
        min_eq_right (by norm_num : (0 : α) ≤ 1)]
      norm_num
    · rw [max_eq_right (by linarith : (0 : α) ≤ v / 2 + 1 / 2),
        min_eq_right (by linarith : v / 2 + 1 / 2 ≤ 1),
        max_eq_right (by linarith : (0 : α) ≤ -v / 2 + 1 / 2),
        min_eq_right (by linarith : -v / 2 + 1 / 2 ≤ 1)]
      ring

/-- C3: for every input row and tree, with finite (initialized) parameters,
the routing code table as built at construction, and a soft-binarization
function satisfying the defining identity `bin(x) + bin(-x) = 1` of the
default `sparsemoid` (the claim's characterization of it), the sum over all
`2^depth` leaves of the leaf weights computed in `forward`
(`responseWeights`, the product over levels of routing-code-matched soft
decisions) is within `1e-4` of `1` (it is in fact exactly `1` in exact
arithmetic).  No property of the choice function is needed, so the default
`sparsemax` is covered as a special case. -/
theorem leaf_weight_sum_one (m : ODST α F T D K) (aexp : α → α)
    (θ τ : Fin T → Fin D → α)
    (hθ : m.feature_thresholds = fun t d => some (θ t d))
    (hτ : m.log_temperatures = fun t d => some (τ t d))
    (hcodes : m.bin_codes_1hot = binCodesTable D)
    (hbin : ∀ v : α, m.bin_function v + m.bin_function (-v) = 1)
    (B : ℕ) (x : Fin B → Fin F → α) (b : Fin B) (t : Fin T) :
    ∃ s, osum (List.ofFn fun c : Fin (2 ^ D) =>
        m.responseWeights aexp B x b t c) = some s ∧ |s - 1| ≤ 1 / 10000 := by
  rw [show (fun c : Fin (2 ^ D) => m.responseWeights aexp B x b t c)
      = fun c : Fin (2 ^ D) => some (∏ d : Fin D,
          if (c : ℕ) / 2 ^ (d : ℕ) % 2 = 1
          then m.bin_function
            (-((m.featureValues B x b t d - θ t d) * aexp (-τ t d)))
          else m.bin_function
            ((m.featureValues B x b t d - θ t d) * aexp (-τ t d))) from
    funext fun c => responseWeights_eq m aexp θ τ hθ hτ hcodes B x b t c]
  rw [osum_ofFn_some]
  refine ⟨_, rfl, ?_⟩
  have hsum : (∑ c : Fin (2 ^ D), ∏ d : Fin D,
      if (c : ℕ) / 2 ^ (d : ℕ) % 2 = 1
      then m.bin_function
        (-((m.featureValues B x b t d - θ t d) * aexp (-τ t d)))
      else m.bin_function
        ((m.featureValues B x b t d - θ t d) * aexp (-τ t d))) = 1 := by
    rw [sum_prod_bits_fin D (fun d j =>
      if j = 1
      then m.bin_function
        (-((m.featureValues B x b t d - θ t d) * aexp (-τ t d)))
      else m.bin_function
        ((m.featureValues B x b t d - θ t d) * aexp (-τ t d)))]
    refine Finset.prod_eq_one fun d _ => ?_
    norm_num
    exact hbin _
  rw [hsum]
  norm_num

/-- Witness for C3: the theorem applied to a concrete module over `ℚ`
whose `bin_function` is the (spec-modelled) `sparsemoid`. -/
theorem leaf_weight_sum_one_witness :
    ∃ s, osum (List.ofFn fun c : Fin (2 ^ 1) =>
        mWit.responseWeights aexpOne 1 (fun _ _ => 2) 0 0 c) = some s
      ∧ |s - 1| ≤ 1 / 10000 :=
  leaf_weight_sum_one mWit aexpOne (fun _ _ => 0) (fun _ _ => 0) rfl rfl rfl
    (fun v => sparsemoid_add_neg v) 1 (fun _ _ => 2) 0 0

/-- Counterexample to C2 as stated: for the rank-3 input `xRank3` of shape
`[1, 1, 1]` (leading dimensions `D1 = D2 = 1`, final dimension
`in_features = 1`) and a module with `flatten_output = false`
(`num_trees = tree_output_dim = 1`), the claim predicts an output of shape
`[1, 1] ++ [num_trees, tree_output_dim] = [1, 1, 1, 1]`, but `forward`
returns shape `[1, 1, 1]`: the source reshapes the recursive result with
`view(*input.shape[:-1], -1)`, which flattens the trailing
`[num_trees, tree_output_dim]` grid for every input of rank exceeding 2. -/
theorem forward_shape_counterexample :
    exShape (mGrid.forward aexpOne xRank3) = [1, 1, 1]
      ∧ ([1, 1, 1] : List ℕ) ≠ [1, 1] ++ [1, 1] :=
  ⟨rfl, by decide⟩

/-- Both `view` reshapes of the rank `≥ 3` path raise the ambiguous `-1`
error on 0-element inputs; this lemma covers the outer
`view(*input.shape[:-1], -1)` (zero leading-dimension product, nonzero
feature dimension). -/
lemma forward_view_error (m : ODST α F T D K) (aexp : α → α) (x : RTensor α)
    (hlen : 2 < x.shape.length) (hlast : x.shape.getLastD 0 = F)
    (hF : F ≠ 0) (hz : x.shape.dropLast.prod = 0) :
    m.forward aexp x = .error .viewAmbiguous := by
  have hv1 : ¬ (2 < x.shape.length ∧ x.shape.getLastD 0 = 0) := by
    rintro ⟨_, h0⟩
    rw [hlast] at h0
    exact hF h0
  rw [ODST.forward, if_neg (by omega), if_neg hv1,
    if_neg (not_not_intro hlast), if_pos ⟨hlen, hz⟩]

/-- Concrete check of the collapsed-corner fix: on the 0-element rank-3
input of shape `[0, 2, 1]` the model raises the reshape-ambiguity error,
as the source does at `view(0, 2, -1)`. -/
lemma forward_view_error_concrete :
    mWit.forward aexpOne ⟨[0, 2, 1], fun _ => 0⟩ = .error .viewAmbiguous :=
  rfl

/-- C2 amended: for every input with at least 2 dimensions whose final
dimension equals `in_features` and which the source's reshapes accept
(rank 2, or rank `≥ 3` with nonzero feature dimension and nonzero
leading-dimension product; otherwise the `view(..., -1)` reshape raises
the ambiguity error on the 0-element tensor), the output keeps the leading
dimensions and appends `[num_trees * tree_output_dim]` when
`flatten_output` is true; when `flatten_output` is false the two
dimensions `[num_trees, tree_output_dim]` are appended only for rank-2
inputs, while for rank `≥ 3` the trailing grid is flattened to
`[num_trees * tree_output_dim]` (by the `view(*input.shape[:-1], -1)`
reshape). -/
theorem forward_shape_amended (m : ODST α F T D K) (aexp : α → α)
    (x : RTensor α) (hlen : 2 ≤ x.shape.length)
    (hlast : x.shape.getLastD 0 = F)
    (hnz : x.shape.length = 2 ∨ (F ≠ 0 ∧ x.shape.dropLast.prod ≠ 0)) :
    exShape (m.forward aexp x)
      = if x.shape.length = 2 ∧ m.flatten_output = false
        then x.shape.dropLast ++ [T, K]
        else x.shape.dropLast ++ [T * K] := by
  have hv1 : ¬ (2 < x.shape.length ∧ x.shape.getLastD 0 = 0) := by
    rcases hnz with h2 | ⟨hF, _⟩
    · rintro ⟨ha, _⟩
      omega
    · rintro ⟨_, h0⟩
      rw [hlast] at h0
      exact hF h0
  have hv2 : ¬ (2 < x.shape.length ∧ x.shape.dropLast.prod = 0) := by
    rcases hnz with h2 | ⟨_, hp⟩
    · rintro ⟨ha, _⟩
      omega
    · rintro ⟨_, h0⟩
      exact hp h0
  rw [ODST.forward, if_neg (by omega), if_neg hv1,
    if_neg (not_not_intro hlast), if_neg hv2]
  show fwdShape m.flatten_output T K x.shape = _
  rw [fwdShape]
  by_cases h2 : x.shape.length = 2 <;> by_cases hf : m.flatten_output <;>
    simp [h2, hf]

/-- Witness for the amended C2 at a concrete rank-2 input. -/
theorem forward_shape_amended_witness :
    exShape (mWit.forward aexpOne xRank2)
      = if xRank2.shape.length = 2 ∧ mWit.flatten_output = false
        then xRank2.shape.dropLast ++ [1, 1]
        else xRank2.shape.dropLast ++ [1 * 1] :=
  forward_shape_amended mWit aexpOne xRank2 (by decide) (by decide)
    (Or.inl (by decide))

/-- C8: `forward` fails with the assertion-style failure exactly when the
input has fewer than 2 dimensions; with at least 2 dimensions the
precondition check never fires, and the computation runs to completion
whenever the last dimension matches `in_features` and the input is one
the source's reshapes accept (rank 2, or rank `≥ 3` with nonzero feature
dimension and nonzero leading-dimension product).  Other failures - the
`einsum` mismatch, and the `view(..., -1)` ambiguity on 0-element
rank `≥ 3` tensors - are distinct, non-assertion errors. -/
theorem forward_assert_iff_rank (m : ODST α F T D K) (aexp : α → α)
    (x : RTensor α) :
    (m.forward aexp x = .error .assertionFailure ↔ x.shape.length < 2)
      ∧ (2 ≤ x.shape.length →
          m.forward aexp x ≠ .error .assertionFailure)
      ∧ (2 ≤ x.shape.length → x.shape.getLastD 0 = F →
          (x.shape.length = 2 ∨ (F ≠ 0 ∧ x.shape.dropLast.prod ≠ 0)) →
          ∃ y, m.forward aexp x = .ok y) := by
  have hiff : m.forward aexp x = .error .assertionFailure
      ↔ x.shape.length < 2 := by
    constructor
    · intro h
      by_contra hlen
      rw [ODST.forward, if_neg hlen] at h
      by_cases h1 : 2 < x.shape.length ∧ x.shape.getLastD 0 = 0
      · rw [if_pos h1] at h
        simp at h
      · rw [if_neg h1] at h
        by_cases h2 : x.shape.getLastD 0 ≠ F
        · rw [if_pos h2] at h
          simp at h
        · rw [if_neg h2] at h
          by_cases h3 : 2 < x.shape.length ∧ x.shape.dropLast.prod = 0
          · rw [if_pos h3] at h
            simp at h
          · rw [if_neg h3] at h
            simp at h
    · intro h
      rw [ODST.forward, if_pos h]
  refine ⟨hiff, fun hlen h => absurd (hiff.mp h) (by omega), ?_⟩
  intro hlen hlast hnz
  have hv1 : ¬ (2 < x.shape.length ∧ x.shape.getLastD 0 = 0) := by
    rcases hnz with h2 | ⟨hF, _⟩
    · rintro ⟨ha, _⟩
      omega
    · rintro ⟨_, h0⟩
      rw [hlast] at h0
      exact hF h0
  have hv2 : ¬ (2 < x.shape.length ∧ x.shape.dropLast.prod = 0) := by
    rcases hnz with h2 | ⟨_, hp⟩
    · rintro ⟨ha, _⟩
      omega
    · rintro ⟨_, h0⟩
      exact hp h0
  rw [ODST.forward, if_neg (by omega), if_neg hv1,
    if_neg (not_not_intro hlast), if_neg hv2]
  exact ⟨_, rfl⟩

/-- Witness for C8: a rank-1 input trips the assertion, a rank-2 input with
matching feature dimension succeeds. -/
theorem forward_assert_iff_rank_witness :
    mWit.forward aexpOne xRank1 = .error .assertionFailure
      ∧ ∃ y, mWit.forward aexpOne xRank2 = .ok y :=
  ⟨(forward_assert_iff_rank mWit aexpOne xRank1).1.mpr (by decide),
    (forward_assert_iff_rank mWit aexpOne xRank2).2.2 (by decide) (by decide)
      (Or.inl (by decide))⟩

/-- C9: with `depth = 0` each tree has exactly one leaf (`2^0 = 1`); for
every input and tree, every leaf weight computed in `forward` is exactly
`1` (the product over zero levels) and the per-tree output equals that
single leaf's response value, independently of the input (the statement
holds for every `x`). -/
theorem depth_zero_single_leaf (m : ODST α F T 0 K) (aexp : α → α)
    (B : ℕ) (x : Fin B → Fin F → α) (b : Fin B) (t : Fin T) (k : Fin K) :
    (∀ c : Fin (2 ^ 0), m.responseWeights aexp B x b t c = some 1)
      ∧ m.treeOutput aexp B x b t k
        = some (m.response t k ⟨0, by norm_num⟩)
      ∧ (2 : ℕ) ^ 0 = 1 := by
  have hw : ∀ c : Fin (2 ^ 0), m.responseWeights aexp B x b t c = some 1 := by
    intro c
    rw [ODST.responseWeights,
      show (List.ofFn fun d : Fin 0 => m.binMatches aexp B x b t d c)
        = [] from List.ofFn_zero _]
    rfl
  refine ⟨hw, ?_, rfl⟩
  rw [ODST.treeOutput,
    show (fun c : Fin (2 ^ 0) =>
        nmul (m.responseWeights aexp B x b t c) (some (m.response t k c)))
      = fun c : Fin (2 ^ 0) => some (1 * m.response t k c) from
      funext fun c => by rw [hw c]; rfl,
    osum_ofFn_some]
  have huniv : (Finset.univ : Finset (Fin (2 ^ 0)))
      = {(⟨0, by norm_num⟩ : Fin (2 ^ 0))} := by decide
  rw [huniv, Finset.sum_singleton, one_mul]

lemma flat_index_div_mod (t : Fin T) (d : Fin D) :
    ((t : ℕ) * D + (d : ℕ)) / D = (t : ℕ)
      ∧ ((t : ℕ) * D + (d : ℕ)) % D = (d : ℕ) := by
  have hD : 0 < D := lt_of_le_of_lt (Nat.zero_le _) d.isLt
  constructor
  · rw [Nat.mul_comm, Nat.mul_add_div hD, Nat.div_eq_of_lt d.isLt,
      Nat.add_zero]
  · rw [Nat.mul_comm, Nat.mul_add_mod, Nat.mod_eq_of_lt d.isLt]

/-- C4: after `initialize` runs on a 2-dimensional sample batch, the
threshold for tree `t`, level `d` is the empirical `q t d`-th percentile,
across samples, of the soft-selected feature values computed exactly as in
forward steps 1-2 (`featureValues`, shared between `forward` and
`initialize`).  The randomly drawn percentile matrix
`100 * Beta(threshold_init_beta, threshold_init_beta)` is externalized as
the argument `q`; the index arithmetic of the source's
`flatten(1, 2).t()` / `percentiles_q.flatten()` / `view(num_trees, depth)`
round-trip is what this theorem verifies. -/
theorem initialize_thresholds_percentile (m : ODST α F T D K) (alog : α → α)
    (S : ℕ) (input : Fin S → Fin F → α) (q : Fin T → Fin D → α) (eps : α)
    (t : Fin T) (d : Fin D) :
    (m.dataAwareInit alog S input q eps).feature_thresholds t d
      = some (npPercentile
          (List.ofFn fun b : Fin S => m.featureValues S input b t d)
          (q t d)) := by
  obtain ⟨hdiv, hmod⟩ := flat_index_div_mod t d
  rw [ODST.dataAwareInit]
  dsimp only
  have hcond : ((t : ℕ) * D + (d : ℕ)) / D < T
      ∧ ((t : ℕ) * D + (d : ℕ)) % D < D := by
    rw [hdiv, hmod]
    exact ⟨t.isLt, d.isLt⟩
  rw [dif_pos hcond]
  have e1 : (⟨((t : ℕ) * D + (d : ℕ)) / D, hcond.1⟩ : Fin T) = t :=
    Fin.ext hdiv
  have e2 : (⟨((t : ℕ) * D + (d : ℕ)) % D, hcond.2⟩ : Fin D) = d :=
    Fin.ext hmod
  rw [e1, e2]

/-- C5: after `initialize(input, eps)` the log-temperature for tree `t`,
level `d` equals the log of `P / max(1, threshold_init_cutoff) + eps`,
where `P` is the empirical percentile at
`100 * min(1, threshold_init_cutoff)`, taken across samples, of the
absolute deviation between the soft-selected feature values and the
just-set thresholds (themselves the percentile expression of C4). -/
theorem initialize_log_temperatures (m : ODST α F T D K) (alog : α → α)
    (S : ℕ) (input : Fin S → Fin F → α) (q : Fin T → Fin D → α) (eps : α)
    (t : Fin T) (d : Fin D) :
    (m.dataAwareInit alog S input q eps).log_temperatures t d
      = some (alog
          (npPercentile
              (List.ofFn fun b : Fin S =>
                |m.featureValues S input b t d -
                  npPercentile
                    (List.ofFn fun b2 : Fin S =>
                      m.featureValues S input b2 t d) (q t d)|)
              (100 * min 1 m.threshold_init_cutoff) /
            max 1 m.threshold_init_cutoff + eps)) := by
  obtain ⟨hdiv, hmod⟩ := flat_index_div_mod t d
  rw [ODST.dataAwareInit]
  dsimp only
  have hcond : ((t : ℕ) * D + (d : ℕ)) / D < T
      ∧ ((t : ℕ) * D + (d : ℕ)) % D < D := by
    rw [hdiv, hmod]
    exact ⟨t.isLt, d.isLt⟩
  rw [dif_pos hcond]
  have e1 : (⟨((t : ℕ) * D + (d : ℕ)) / D, hcond.1⟩ : Fin T) = t :=
    Fin.ext hdiv
  have e2 : (⟨((t : ℕ) * D + (d : ℕ)) % D, hcond.2⟩ : Fin D) = d :=
    Fin.ext hmod
  rw [e1, e2]

/-- C7: after `initialize` on a sample batch with `S ≥ 1` samples, neither
`feature_thresholds` nor `log_temperatures` contains a remaining NaN
sentinel (`none`); both tensors keep their `[num_trees, depth]` shape,
which the indexed function type `Fin T → Fin D → Option α` carries
intrinsically. -/
theorem initialize_no_nan (m : ODST α F T D K) (alog : α → α)
    (S : ℕ) (hS : 1 ≤ S) (input : Fin S → Fin F → α)
    (q : Fin T → Fin D → α) (eps : α) (t : Fin T) (d : Fin D) :
    ((m.dataAwareInit alog S input q eps).feature_thresholds t d).isSome = true
      ∧ ((m.dataAwareInit alog S input q eps).log_temperatures t d).isSome
        = true :=
  ⟨rfl, rfl⟩

/-- Witness for C7 at a concrete one-sample batch. -/
theorem initialize_no_nan_witness :
    ((mWit.dataAwareInit alogZero 1 (fun _ _ => 0) (fun _ _ => 50)
        (1 / 1000000)).feature_thresholds 0 0).isSome = true
      ∧ ((mWit.dataAwareInit alogZero 1 (fun _ _ => 0) (fun _ _ => 50)
          (1 / 1000000)).log_temperatures 0 0).isSome = true :=
  initialize_no_nan mWit alogZero 1 (by norm_num) (fun _ _ => 0)
    (fun _ _ => 50) (1 / 1000000) 0 0

/-- C10: `initialize` mutates only `feature_thresholds` and
`log_temperatures`; every other component of the module - the response
tensor, the feature-selection logits, the routing code table, and the
configuration fields - is unchanged.  (In this functional embedding the
sample batch is passed by value and `initialize` returns the updated
module, matching the source's in-place update that returns `None` and
leaves the input tensor untouched.) -/
theorem initialize_frame (m : ODST α F T D K) (alog : α → α) (S : ℕ)
    (input : Fin S → Fin F → α) (q : Fin T → Fin D → α) (eps : α) :
    (m.dataAwareInit alog S input q eps).response = m.response
      ∧ (m.dataAwareInit alog S input q eps).feature_selection_logits
        = m.feature_selection_logits
      ∧ (m.dataAwareInit alog S input q eps).bin_codes_1hot = m.bin_codes_1hot
      ∧ (m.dataAwareInit alog S input q eps).flatten_output = m.flatten_output
      ∧ (m.dataAwareInit alog S input q eps).choice_function
        = m.choice_function
      ∧ (m.dataAwareInit alog S input q eps).bin_function = m.bin_function
      ∧ (m.dataAwareInit alog S input q eps).threshold_init_beta
        = m.threshold_init_beta
      ∧ (m.dataAwareInit alog S input q eps).threshold_init_cutoff
        = m.threshold_init_cutoff :=
  ⟨rfl, rfl, rfl, rfl, rfl, rfl, rfl, rfl⟩

/-- C6: for every constructed module, the routing code table (of shape
`[depth, 2^depth, 2]`, carried by its indexed type) has entry `0` equal to
the bit `(c / 2^l) % 2` and entry `1` equal to its complement; distinct
leaves have distinct codes; and `initialize` leaves the table unchanged
(`forward` returns only an output tensor and cannot modify it). -/
theorem bin_codes_spec (F2 T2 D2 K2 : ℕ) (flatten_output : Bool)
    (choiceF : (Fin F2 → Fin T2 → Fin D2 → α) → (Fin F2 → Fin T2 → Fin D2 → α))
    (binF : α → α) (resp : Fin T2 → Fin K2 → Fin (2 ^ D2) → α)
    (logits : Fin F2 → Fin T2 → Fin D2 → α) (beta cutoff : α)
    (alog : α → α) (S : ℕ) (input : Fin S → Fin F2 → α)
    (q : Fin T2 → Fin D2 → α) (eps : α) (m : ODST α F2 T2 D2 K2)
    (hm : m = ODST.create F2 T2 D2 K2 flatten_output choiceF binF resp logits
      beta cutoff) :
    (∀ (d : Fin D2) (c : Fin (2 ^ D2)),
        m.bin_codes_1hot d c 0 = (((c : ℕ) / 2 ^ (d : ℕ) % 2 : ℕ) : α)
        ∧ m.bin_codes_1hot d c 1
          = 1 - (((c : ℕ) / 2 ^ (d : ℕ) % 2 : ℕ) : α))
      ∧ (∀ c c2 : Fin (2 ^ D2),
          (∀ (d : Fin D2) (s : Fin 2),
            m.bin_codes_1hot d c s = m.bin_codes_1hot d c2 s) → c = c2)
      ∧ (m.dataAwareInit alog S input q eps).bin_codes_1hot
        = m.bin_codes_1hot := by
  subst hm
  refine ⟨fun d c => ⟨rfl, rfl⟩, ?_, rfl⟩
  intro c c2 h
  have hbits : ∀ i : ℕ, (c : ℕ).testBit i = (c2 : ℕ).testBit i := by
    intro i
    by_cases hi : i < D2
    · have hs := h ⟨i, hi⟩ 0
      have hnat : (c : ℕ) / 2 ^ i % 2 = (c2 : ℕ) / 2 ^ i % 2 := by
        have hcast : (((c : ℕ) / 2 ^ i % 2 : ℕ) : α)
            = (((c2 : ℕ) / 2 ^ i % 2 : ℕ) : α) := hs
        exact_mod_cast hcast
      rw [Nat.testBit_to_div_mod, Nat.testBit_to_div_mod, hnat]
    · have hc : (c : ℕ) < 2 ^ i :=
        lt_of_lt_of_le c.isLt (Nat.pow_le_pow_right (by omega) (by omega))
      have hc2 : (c2 : ℕ) < 2 ^ i :=
        lt_of_lt_of_le c2.isLt (Nat.pow_le_pow_right (by omega) (by omega))
      rw [Nat.testBit_eq_false_of_lt hc, Nat.testBit_eq_false_of_lt hc2]
  exact Fin.ext (Nat.eq_of_testBit_eq hbits)

/-- Witness for C6: the frame part of the theorem at a concrete
construction over `ℚ`. -/
theorem bin_codes_spec_witness :
    (mGrid.dataAwareInit alogZero 1 (fun _ _ => 0) (fun _ _ => 50)
        (1 / 1000000)).bin_codes_1hot = mGrid.bin_codes_1hot :=
  (bin_codes_spec 1 1 1 1 false id sparsemoid (fun _ _ _ => 1)
    (fun _ _ _ => 0) 1 1 alogZero 1 (fun _ _ => 0) (fun _ _ => 50)
    (1 / 1000000) mGrid rfl).2.2

end Helpers
